import Mathlib

/-!
Verification of the similarity-graph / community-partition core of the
`visualize_graphs.py` script.

The embedded functions follow the source:
* `calculate_jaccard_similarity` — the function of the same name in the script;
* `pairsAfter` — the nested loop `for i, user1 in enumerate(user_ids): for
  user2 in user_ids[i+1:]` that enumerates each ordered-later pair once;
* `computeEdges` — the edge-acceptance filter of
  `visualize_user_similarity_graph` (keep a pair iff its Jaccard similarity is
  at least the threshold);
* `UnionFind` with `make_set`, `find`, `union` — the inner class of
  `visualize_taste_communities`, with the recursive path-compressing `find`
  modelled with explicit fuel and a dictionary modelled as a finite domain
  plus a parent function (looking up a key outside the domain is a
  `KeyError`).
-/

namespace RecGraphs

/-- Jaccard similarity, translated from `calculate_jaccard_similarity`:
if both sets are empty return `0.0`; otherwise divide the intersection
cardinality by the union cardinality, guarding `union > 0`. Python's float
division is modelled over `ℚ`. -/
def calculate_jaccard_similarity (set1 set2 : Finset ℕ) : ℚ :=
  if set1.card = 0 ∧ set2.card = 0 then 0
  else
    let inter := (set1 ∩ set2).card
    let uni := (set1 ∪ set2).card
    if 0 < uni then (inter : ℚ) / (uni : ℚ) else 0

/-- The pair enumeration of the double loop
`for i, user1 in enumerate(user_ids): for user2 in user_ids[i+1:]`:
each `(user1, user2)` with `user2` strictly later in the list, in loop order. -/
def pairsAfter : List ℕ → List (ℕ × ℕ)
  | [] => []
  | u :: rest => (rest.map fun v => (u, v)) ++ pairsAfter rest

/-- Edge computation of `visualize_user_similarity_graph`: for each enumerated
pair compute the Jaccard similarity of the two liked-sets and emit a weighted
edge iff `similarity >= min_similarity`. -/
def computeEdges (ids : List ℕ) (liked : ℕ → Finset ℕ) (t : ℚ) :
    List (ℕ × ℕ × ℚ) :=
  (pairsAfter ids).filterMap fun p =>
    let s := calculate_jaccard_similarity (liked p.1) (liked p.2)
    if t ≤ s then some (p.1, p.2, s) else none

/-- The accepted pairs of `visualize_taste_communities`: the same double loop
and the same acceptance test `similarity >= min_similarity`, keeping just the
endpoints that get passed to `uf.union`. -/
def acceptedPairs (ids : List ℕ) (liked : ℕ → Finset ℕ) (t : ℚ) :
    List (ℕ × ℕ) :=
  (pairsAfter ids).filter fun p =>
    t ≤ calculate_jaccard_similarity (liked p.1) (liked p.2)

/-- Error raised by a dictionary lookup of an unregistered key (Python's
`KeyError`), or exhaustion of the fuel that models the unbounded recursion
of the Python `find`. -/
inductive UFErr where
  | keyError (x : ℕ)
  | outOfFuel
deriving DecidableEq

/-- The state of the `UnionFind` class: Python's `self.parent` dictionary,
modelled as its key set `dom` plus a parent function (only meaningful on
`dom`; a lookup outside `dom` is a `KeyError`). -/
structure UnionFind where
  dom : Finset ℕ
  parent : ℕ → ℕ

/-- `UnionFind.__init__`: the empty parent dictionary. -/
def UnionFind.empty : UnionFind := ⟨∅, fun x => x⟩

/-- `make_set`: `if x not in self.parent: self.parent[x] = x`. -/
def UnionFind.make_set (uf : UnionFind) (x : ℕ) : UnionFind :=
  if x ∈ uf.dom then uf
  else ⟨insert x uf.dom, Function.update uf.parent x x⟩

/-- `find` with path compression, translated from
`if self.parent[x] != x: self.parent[x] = self.find(self.parent[x]); return
self.parent[x]`. The recursion is driven by explicit fuel; a lookup of an
unregistered key raises `keyError`. On an error no assignment has happened,
so the state is unchanged (exactly as in Python, where the exception
propagates before any write). -/
def UnionFind.find : ℕ → UnionFind → ℕ → Except UFErr (ℕ × UnionFind)
  | 0, _, _ => .error .outOfFuel
  | fuel + 1, uf, x =>
    if x ∈ uf.dom then
      if uf.parent x = x then .ok (x, uf)
      else
        match UnionFind.find fuel uf (uf.parent x) with
        | .error e => .error e
        | .ok (r, uf1) => .ok (r, ⟨uf1.dom, Function.update uf1.parent x r⟩)
    else .error (.keyError x)

/-- `union`: `root_x = self.find(x); root_y = self.find(y);
if root_x != root_y: self.parent[root_x] = root_y`. Returns the state at the
point the operation finished or failed, plus the error if one was raised:
a failure in the second `find` keeps the mutations of the first. -/
def UnionFind.union (fuel : ℕ) (uf : UnionFind) (x y : ℕ) :
    UnionFind × Option UFErr :=
  match UnionFind.find fuel uf x with
  | .error e => (uf, some e)
  | .ok (rx, uf1) =>
    match UnionFind.find fuel uf1 y with
    | .error e => (uf1, some e)
    | .ok (ry, uf2) =>
      if rx ≠ ry then (⟨uf2.dom, Function.update uf2.parent rx ry⟩, none)
      else (uf2, none)

/-- Pure (mutation-free) root computation by repeated parent lookup, with
fuel; `some r` means the parent chain from `x` reaches the root `r` within
the fuel while staying inside the registered domain. -/
def UnionFind.rootW : ℕ → UnionFind → ℕ → Option ℕ
  | 0, _, _ => none
  | fuel + 1, uf, x =>
    if x ∈ uf.dom then
      if uf.parent x = x then some x
      else UnionFind.rootW fuel uf (uf.parent x)
    else none

/-- The forest invariant with a uniform depth bound: every registered entity
reaches a root within `B` parent lookups. -/
def ValidB (B : ℕ) (uf : UnionFind) : Prop :=
  ∀ x ∈ uf.dom, (UnionFind.rootW B uf x).isSome

instance (B : ℕ) (uf : UnionFind) : Decidable (ValidB B uf) :=
  inferInstanceAs
    (Decidable (∀ x ∈ uf.dom, (UnionFind.rootW B uf x).isSome))

/-- The whole community pipeline of `visualize_taste_communities`:
`make_set` every user, then for each enumerated pair whose Jaccard
similarity reaches the threshold, `union` its endpoints, in loop order. -/
def buildCommunities (ids : List ℕ) (liked : ℕ → Finset ℕ) (t : ℚ)
    (fuel : ℕ) : UnionFind :=
  let uf0 := ids.foldl (fun uf u => uf.make_set u) UnionFind.empty
  (acceptedPairs ids liked t).foldl
    (fun uf p => (UnionFind.union fuel uf p.1 p.2).1) uf0

/-- `a` and `b` are connected by a path of accepted edges: the reflexive
symmetric transitive closure of the edge list. -/
inductive Connected (E : List (ℕ × ℕ)) : ℕ → ℕ → Prop where
  | refl (a : ℕ) : Connected E a a
  | symm : Connected E a b → Connected E b a
  | trans : Connected E a b → Connected E b c → Connected E a c
  | edge : (a, b) ∈ E → Connected E a b

/-- The concrete membership map of the spec's scenario:
`{U1:{S1,S2}, U2:{S2,S3}, U3:{S9}}`, used by witnesses. -/
def likedEx : ℕ → Finset ℕ := fun n =>
  if n = 1 then {1, 2} else if n = 2 then {2, 3} else if n = 3 then {9} else ∅

/-- A small state reached through the API: entities `0, 1, 2` registered,
then `union(0, 1)`; its parent map is `{0: 1, 1: 1, 2: 2}`. -/
def ufPairEx : UnionFind :=
  (UnionFind.union 5
    (((UnionFind.empty.make_set 0).make_set 1).make_set 2) 0 1).1

/-- `ufPairEx` followed by `union(1, 2)`: a chain `0 ↦ 1 ↦ 2 ↦ 2`. -/
def ufChainEx : UnionFind := (UnionFind.union 5 ufPairEx 1 2).1

theorem union_card_pos_of_not_both_empty {set1 set2 : Finset ℕ}
    (h : ¬(set1.card = 0 ∧ set2.card = 0)) : 0 < (set1 ∪ set2).card := by
  rcases not_and_or.mp h with h1 | h1 <;>
    [ rcases Finset.card_pos.mp (Nat.pos_of_ne_zero h1) with ⟨a, ha⟩;
      rcases Finset.card_pos.mp (Nat.pos_of_ne_zero h1) with ⟨a, ha⟩ ] <;>
    exact Finset.card_pos.mpr ⟨a, by simp [Finset.mem_union, ha]⟩

/-- C2: the similarity function returns `|A ∩ B| / |A ∪ B|` whenever the
union is non-empty, returns `0` when both sets are empty, and the only way
the union can be empty (the division's guard) is the doubly-empty case, so
no division by zero ever occurs. -/
theorem jaccard_spec (set1 set2 : Finset ℕ) :
    ((set1 ∪ set2).Nonempty →
      calculate_jaccard_similarity set1 set2 =
        ((set1 ∩ set2).card : ℚ) / ((set1 ∪ set2).card : ℚ)) ∧
    (set1 = ∅ → set2 = ∅ → calculate_jaccard_similarity set1 set2 = 0) ∧
    (set1 ∪ set2 = ∅ → set1 = ∅ ∧ set2 = ∅) := by
  refine ⟨fun hne => ?_, fun h1 h2 => ?_, fun h => ?_⟩
  · have hcard : ¬(set1.card = 0 ∧ set2.card = 0) := by
      rintro ⟨c1, c2⟩
      rcases hne with ⟨a, ha⟩
      rcases Finset.mem_union.mp ha with h | h
      · exact absurd (Finset.card_eq_zero.mp c1 ▸ h) (Finset.not_mem_empty a)
      · exact absurd (Finset.card_eq_zero.mp c2 ▸ h) (Finset.not_mem_empty a)
    have hpos := union_card_pos_of_not_both_empty hcard
    simp only [calculate_jaccard_similarity, if_neg hcard, if_pos hpos]
  · subst h1; subst h2; simp [calculate_jaccard_similarity]
  · constructor <;>
      [ exact Finset.eq_empty_of_forall_not_mem fun a ha =>
          (Finset.not_mem_empty a) (h ▸ Finset.mem_union_left _ ha);
        exact Finset.eq_empty_of_forall_not_mem fun a ha =>
          (Finset.not_mem_empty a) (h ▸ Finset.mem_union_right _ ha) ]

/-- C2 witness: the theorem applied at `{1}, {2}` (non-empty union) and at
the doubly-empty input, discharging every hypothesis concretely. -/
theorem jaccard_spec_witness :
    (calculate_jaccard_similarity {1} {2} =
      ((({1} : Finset ℕ) ∩ {2}).card : ℚ) /
        ((({1} : Finset ℕ) ∪ {2}).card : ℚ)) ∧
    (calculate_jaccard_similarity ∅ ∅ = 0) ∧
    ((∅ : Finset ℕ) = ∅ ∧ (∅ : Finset ℕ) = ∅) :=
  ⟨(jaccard_spec {1} {2}).1 (by decide),
   (jaccard_spec ∅ ∅).2.1 rfl rfl,
   (jaccard_spec ∅ ∅).2.2 (by simp)⟩

/-- C4: the similarity lies in `[0, 1]`; it is `1` iff the two sets are
identical and non-empty; it is `0` iff the two sets are disjoint (including
the doubly-empty case). -/
theorem jaccard_bounds (set1 set2 : Finset ℕ) :
    0 ≤ calculate_jaccard_similarity set1 set2 ∧
    calculate_jaccard_similarity set1 set2 ≤ 1 ∧
    (calculate_jaccard_similarity set1 set2 = 1 ↔ set1 = set2 ∧ set1 ≠ ∅) ∧
    (calculate_jaccard_similarity set1 set2 = 0 ↔ set1 ∩ set2 = ∅) := by
  by_cases hc : set1.card = 0 ∧ set2.card = 0
  · have h1 : set1 = ∅ := Finset.card_eq_zero.mp hc.1
    have h2 : set2 = ∅ := Finset.card_eq_zero.mp hc.2
    subst h1; subst h2
    simp [calculate_jaccard_similarity]
  · have hpos := union_card_pos_of_not_both_empty hc
    have hval : calculate_jaccard_similarity set1 set2 =
        ((set1 ∩ set2).card : ℚ) / ((set1 ∪ set2).card : ℚ) := by
      simp only [calculate_jaccard_similarity, if_neg hc, if_pos hpos]
    have hu0 : ((set1 ∪ set2).card : ℚ) ≠ 0 := by
      exact_mod_cast Nat.pos_iff_ne_zero.mp hpos
    have hle : (set1 ∩ set2).card ≤ (set1 ∪ set2).card :=
      Finset.card_le_card (Finset.inter_subset_union)
    refine ⟨?_, ?_, ?_, ?_⟩
    · rw [hval]; positivity
    · rw [hval]
      rw [div_le_one (by exact_mod_cast hpos)]
      exact_mod_cast hle
    · rw [hval]
      rw [div_eq_one_iff_eq hu0]
      constructor
      · intro h
        have hcards : (set1 ∩ set2).card = (set1 ∪ set2).card := by exact_mod_cast h
        have hsub : set1 ∪ set2 ⊆ set1 ∩ set2 :=
          Finset.eq_of_subset_of_card_le Finset.inter_subset_union hcards.ge ▸
            Finset.Subset.refl _
        have heq : set1 = set2 := by
          apply Finset.Subset.antisymm
          · exact fun a ha =>
              (Finset.mem_inter.mp (hsub (Finset.mem_union_left _ ha))).2
          · exact fun a ha =>
              (Finset.mem_inter.mp (hsub (Finset.mem_union_right _ ha))).1
        refine ⟨heq, fun hemp => ?_⟩
        exact hc ⟨by simp [hemp], by simp [← heq, hemp]⟩
      · rintro ⟨rfl, _⟩
        simp
    · rw [hval]
      rw [div_eq_zero_iff]
      constructor
      · rintro (h | h)
        · exact Finset.card_eq_zero.mp (by exact_mod_cast h)
        · exact absurd h hu0
      · intro h
        left
        simp [h]

theorem jaccard_nonneg (set1 set2 : Finset ℕ) :
    0 ≤ calculate_jaccard_similarity set1 set2 := by
  unfold calculate_jaccard_similarity
  split
  · exact le_refl 0
  · dsimp only
    split
    · positivity
    · exact le_refl 0

theorem computeEdges_length_eq_countP (ids : List ℕ) (liked : ℕ → Finset ℕ)
    (t : ℚ) :
    (computeEdges ids liked t).length =
      (pairsAfter ids).countP
        (fun p => t ≤ calculate_jaccard_similarity (liked p.1) (liked p.2)) := by
  unfold computeEdges
  induction pairsAfter ids with
  | nil => rfl
  | cons p l ih =>
    rw [List.filterMap_cons, List.countP_cons]
    by_cases h : t ≤ calculate_jaccard_similarity (liked p.1) (liked p.2)
    · simp [if_pos h, ih, h]
    · simp [if_neg h, ih, h]

/-- C5: raising the threshold never increases the number of accepted edges
for the same membership input. -/
theorem edge_count_monotone (ids : List ℕ) (liked : ℕ → Finset ℕ)
    (t1 t2 : ℚ) (h : t1 ≤ t2) :
    (computeEdges ids liked t2).length ≤ (computeEdges ids liked t1).length := by
  rw [computeEdges_length_eq_countP, computeEdges_length_eq_countP]
  refine List.countP_mono_left fun p _ hp => ?_
  have := of_decide_eq_true hp
  exact decide_eq_true (le_trans h this)

/-- C5 witness: the theorem applied at the spec's concrete scenario with
thresholds `1/5 ≤ 1/2`. -/
theorem edge_count_monotone_witness :
    (computeEdges [1, 2, 3] likedEx (1/2)).length ≤
      (computeEdges [1, 2, 3] likedEx (1/5)).length :=
  edge_count_monotone [1, 2, 3] likedEx (1/5) (1/2) (by norm_num)

/-- C7 counterexample: there is no threshold validation. At the out-of-range
threshold `-1` on two users who like the same item, `computeEdges` does not
fail with any configuration error: it enumerates the pair, computes its
similarity and emits the edge. -/
theorem jaccard_five_five : calculate_jaccard_similarity {5} {5} = 1 := by
  rw [calculate_jaccard_similarity, if_neg (by decide),
    show (({5} : Finset ℕ) ∩ {5}).card = 1 from by decide,
    show (({5} : Finset ℕ) ∪ {5}).card = 1 from by decide]
  norm_num

theorem threshold_not_rejected_counterexample :
    computeEdges [0, 1] (fun _ => {5}) (-1) = [(0, 1, 1)] := by
  simp only [computeEdges, pairsAfter, List.map, List.append]
  norm_num [List.filterMap, jaccard_five_five]

/-- C7 amended: no fail-fast validation of the threshold exists; an
out-of-range threshold is used directly in the acceptance comparison, so a
negative threshold makes every enumerated pair an accepted edge rather than
raising `InvalidConfiguration`. -/
theorem threshold_not_validated (ids : List ℕ) (liked : ℕ → Finset ℕ)
    (t : ℚ) (ht : t < 0) :
    computeEdges ids liked t = (pairsAfter ids).map fun p =>
      (p.1, p.2, calculate_jaccard_similarity (liked p.1) (liked p.2)) := by
  unfold computeEdges
  induction pairsAfter ids with
  | nil => rfl
  | cons p l ih =>
    rw [List.filterMap_cons, List.map_cons,
      if_pos (le_trans ht.le (jaccard_nonneg _ _)), ih]

/-- C7 amended witness: the theorem applied at the concrete scenario with
the out-of-range threshold `-1`. -/
theorem threshold_not_validated_witness :
    computeEdges [1, 2, 3] likedEx (-1) = (pairsAfter [1, 2, 3]).map fun p =>
      (p.1, p.2, calculate_jaccard_similarity (likedEx p.1) (likedEx p.2)) :=
  threshold_not_validated [1, 2, 3] likedEx (-1) (by norm_num)

theorem pairsAfter_mem_iff (a b : ℕ) (ids : List ℕ) :
    (a, b) ∈ pairsAfter ids ↔ List.Sublist [a, b] ids := by
  induction ids with
  | nil => simp [pairsAfter]
  | cons u rest ih =>
    simp only [pairsAfter, List.mem_append, List.mem_map]
    constructor
    · rintro (⟨v, hv, heq⟩ | h)
      · injection heq with h1 h2
        subst h1; subst h2
        exact List.Sublist.cons₂ _ (List.singleton_sublist.mpr hv)
      · exact List.Sublist.cons _ (ih.mp h)
    · intro h
      cases h with
      | cons _ h2 => exact Or.inr (ih.mpr h2)
      | cons₂ _ h2 => exact Or.inl ⟨b, List.singleton_sublist.mp h2, rfl⟩

theorem pairsAfter_mem_both {a b : ℕ} {ids : List ℕ}
    (h : (a, b) ∈ pairsAfter ids) : a ∈ ids ∧ b ∈ ids := by
  have hs := (pairsAfter_mem_iff a b ids).mp h
  exact ⟨hs.subset (by simp), hs.subset (by simp)⟩

theorem sublist_pair_antisymm {a b : ℕ} {ids : List ℕ} (hnd : ids.Nodup)
    (h1 : List.Sublist [a, b] ids) (h2 : List.Sublist [b, a] ids) : a = b := by
  induction ids with
  | nil => cases h1
  | cons u rest ih =>
    rcases List.nodup_cons.mp hnd with ⟨hu, hndr⟩
    cases h1 with
    | cons _ h1' =>
      cases h2 with
      | cons _ h2' => exact ih hndr h1' h2'
      | cons₂ _ h2' =>
        exact absurd (h1'.subset (by simp)) hu
    | cons₂ _ h1' =>
      cases h2 with
      | cons _ h2' =>
        exact absurd (h2'.subset (by simp)) hu
      | cons₂ _ h2' => rfl

theorem pairsAfter_nodup (ids : List ℕ) (hnd : ids.Nodup) :
    (pairsAfter ids).Nodup := by
  induction ids with
  | nil => simp [pairsAfter]
  | cons u rest ih =>
    rcases List.nodup_cons.mp hnd with ⟨hu, hndr⟩
    simp only [pairsAfter]
    refine List.Nodup.append ?_ (ih hndr) ?_
    · exact hndr.map fun v w h => congrArg Prod.snd h
    · intro x hx1 hx2
      rcases List.mem_map.mp hx1 with ⟨v, _, rfl⟩
      exact hu (pairsAfter_mem_both hx2).1

/-- C3: a weighted edge `(a, b, s)` is emitted exactly when `a` appears
strictly before `b` in the user list and `s`, the Jaccard similarity of
their liked-sets, reaches the threshold; pairs below threshold yield
nothing; both orientations of a pair are never emitted; no pair is emitted
twice; and the taste-community loop accepts precisely the endpoint pairs of
these edges. -/
theorem edges_exact (ids : List ℕ) (liked : ℕ → Finset ℕ) (t : ℚ)
    (hnd : ids.Nodup) :
    (∀ a b s, (a, b, s) ∈ computeEdges ids liked t ↔
      (List.Sublist [a, b] ids ∧
        s = calculate_jaccard_similarity (liked a) (liked b) ∧ t ≤ s)) ∧
    (∀ a b, a ≠ b → ¬((∃ s, (a, b, s) ∈ computeEdges ids liked t) ∧
      (∃ s, (b, a, s) ∈ computeEdges ids liked t))) ∧
    (computeEdges ids liked t).Nodup ∧
    acceptedPairs ids liked t =
      (computeEdges ids liked t).map fun e => (e.1, e.2.1) := by
  have hmem : ∀ a b s, (a, b, s) ∈ computeEdges ids liked t ↔
      (List.Sublist [a, b] ids ∧
        s = calculate_jaccard_similarity (liked a) (liked b) ∧ t ≤ s) := by
    intro a b s
    unfold computeEdges
    rw [List.mem_filterMap]
    constructor
    · rintro ⟨p, hp, hsome⟩
      dsimp only at hsome
      by_cases hc : t ≤ calculate_jaccard_similarity (liked p.1) (liked p.2)
      · rw [if_pos hc] at hsome
        injection hsome with h
        injection h with h1 h2
        injection h2 with h2 h3
        subst h1; subst h2; subst h3
        exact ⟨(pairsAfter_mem_iff _ _ _).mp (by simpa using hp), rfl, hc⟩
      · rw [if_neg hc] at hsome
        cases hsome
    · rintro ⟨hsub, rfl, hc⟩
      exact ⟨(a, b), (pairsAfter_mem_iff a b ids).mpr hsub, by
        dsimp only; rw [if_pos hc]⟩
  refine ⟨hmem, fun a b _ => ?_, ?_, ?_⟩
  · rintro ⟨⟨s1, h1⟩, ⟨s2, h2⟩⟩
    have hs1 := ((hmem a b s1).mp h1).1
    have hs2 := ((hmem b a s2).mp h2).1
    exact ‹a ≠ b› (sublist_pair_antisymm hnd hs1 hs2)
  · refine List.Nodup.filterMap ?_ (pairsAfter_nodup ids hnd)
    intro p p' e he he'
    dsimp only at he he'
    by_cases hc : t ≤ calculate_jaccard_similarity (liked p.1) (liked p.2)
    · rw [if_pos hc] at he
      by_cases hc' : t ≤ calculate_jaccard_similarity (liked p'.1) (liked p'.2)
      · rw [if_pos hc'] at he'
        injection he with h
        injection he' with h'
        have hpp := h.trans h'.symm
        injection hpp with h1 h2
        injection h2 with h2 _
        exact Prod.ext h1 h2
      · rw [if_neg hc'] at he'; cases he'
    · rw [if_neg hc] at he; cases he
  · unfold acceptedPairs computeEdges
    induction pairsAfter ids with
    | nil => rfl
    | cons p l ih =>
      by_cases hc : t ≤ calculate_jaccard_similarity (liked p.1) (liked p.2)
      · simp only [List.filter_cons, List.filterMap_cons, decide_eq_true hc,
          if_pos hc, if_true, List.map_cons]
        exact congrArg (List.cons p) ih
      · simp only [List.filter_cons, List.filterMap_cons, decide_eq_false hc,
          if_neg hc, Bool.false_eq_true, if_false]
        exact ih

/-- C3 witness: the theorem applied at the concrete scenario list
`[1, 2, 3]`, whose `Nodup` hypothesis holds by computation. -/
theorem edges_exact_witness :
    (∀ a b s, (a, b, s) ∈ computeEdges [1, 2, 3] likedEx (1/5) ↔
      (List.Sublist [a, b] [1, 2, 3] ∧
        s = calculate_jaccard_similarity (likedEx a) (likedEx b) ∧ (1/5 : ℚ) ≤ s)) ∧
    (∀ a b, a ≠ b → ¬((∃ s, (a, b, s) ∈ computeEdges [1, 2, 3] likedEx (1/5)) ∧
      (∃ s, (b, a, s) ∈ computeEdges [1, 2, 3] likedEx (1/5)))) ∧
    (computeEdges [1, 2, 3] likedEx (1/5)).Nodup ∧
    acceptedPairs [1, 2, 3] likedEx (1/5) =
      (computeEdges [1, 2, 3] likedEx (1/5)).map fun e => (e.1, e.2.1) :=
  edges_exact [1, 2, 3] likedEx (1/5) (by decide)

theorem rootW_dom {n : ℕ} {uf : UnionFind} {x r : ℕ}
    (h : UnionFind.rootW n uf x = some r) : x ∈ uf.dom := by
  cases n with
  | zero => cases h
  | succ n =>
    rw [UnionFind.rootW] at h
    by_cases hdom : x ∈ uf.dom
    · exact hdom
    · rw [if_neg hdom] at h; cases h

theorem rootW_mono : ∀ {n : ℕ} {uf : UnionFind} {x r m : ℕ},
    UnionFind.rootW n uf x = some r → n ≤ m →
      UnionFind.rootW m uf x = some r := by
  intro n
  induction n with
  | zero => intro uf x r m h _; cases h
  | succ n ih =>
    intro uf x r m h hm
    obtain ⟨m', rfl⟩ : ∃ m', m = m' + 1 := ⟨m - 1, by omega⟩
    rw [UnionFind.rootW] at h ⊢
    by_cases hdom : x ∈ uf.dom
    · rw [if_pos hdom] at h ⊢
      by_cases hpar : uf.parent x = x
      · rwa [if_pos hpar] at h ⊢
      · rw [if_neg hpar] at h ⊢
        exact ih h (by omega)
    · rw [if_neg hdom] at h; cases h

theorem rootW_root : ∀ {n : ℕ} {uf : UnionFind} {x r : ℕ},
    UnionFind.rootW n uf x = some r → r ∈ uf.dom ∧ uf.parent r = r := by
  intro n
  induction n with
  | zero => intro uf x r h; cases h
  | succ n ih =>
    intro uf x r h
    rw [UnionFind.rootW] at h
    by_cases hdom : x ∈ uf.dom
    · rw [if_pos hdom] at h
      by_cases hpar : uf.parent x = x
      · rw [if_pos hpar] at h
        injection h with h
        subst h
        exact ⟨hdom, hpar⟩
      · rw [if_neg hpar] at h
        exact ih h
    · rw [if_neg hdom] at h; cases h

theorem rootW_of_root {uf : UnionFind} {r : ℕ} (n : ℕ) (hdom : r ∈ uf.dom)
    (hpar : uf.parent r = r) : UnionFind.rootW (n + 1) uf r = some r := by
  rw [UnionFind.rootW, if_pos hdom, if_pos hpar]

theorem rootW_pos {n : ℕ} {uf : UnionFind} {x r : ℕ}
    (h : UnionFind.rootW n uf x = some r) : 1 ≤ n := by
  cases n with
  | zero => cases h
  | succ n => omega

/-- Path compression preserves every reachable root at the same fuel:
repointing a node `x` directly to its own root `r` only shortens chains. -/
theorem rootW_update_eq_root {uf : UnionFind} {x r : ℕ} {k0 : ℕ}
    (hx : UnionFind.rootW k0 uf x = some r) :
    ∀ {k y s : ℕ}, UnionFind.rootW k uf y = some s →
      UnionFind.rootW k ⟨uf.dom, Function.update uf.parent x r⟩ y = some s := by
  intro k
  induction k with
  | zero => intro y s h; cases h
  | succ k ih =>
    intro y s h
    rw [UnionFind.rootW] at h
    by_cases hydom : y ∈ uf.dom
    · rw [if_pos hydom] at h
      rw [UnionFind.rootW]
      dsimp only
      rw [if_pos hydom]
      by_cases hyx : y = x
      · subst hyx
        by_cases hpar : uf.parent y = y
        · rw [if_pos hpar] at h
          injection h with h
          subst h
          have hr : r = y := by
            obtain ⟨k0', rfl⟩ : ∃ k0', k0 = k0' + 1 :=
              ⟨k0 - 1, by have := rootW_pos hx; omega⟩
            rw [UnionFind.rootW, if_pos hydom, if_pos hpar] at hx
            exact (Option.some.inj hx).symm
          subst hr
          simp [Function.update_same]
        · rw [if_neg hpar] at h
          have hrs : s = r := by
            have h1 := rootW_mono hx (le_max_left k0 (k + 1))
            have h2 : UnionFind.rootW (max k0 (k + 1)) uf y = some s := by
              refine rootW_mono ?_ (le_max_right k0 (k + 1))
              rw [UnionFind.rootW, if_pos hydom, if_neg hpar]
              exact h
            exact Option.some.inj (h2.symm.trans h1)
          subst hrs
          have hry : s ≠ y := fun he => hpar (he ▸ (rootW_root hx).2)
          rw [Function.update_same, if_neg hry]
          have hk1 : 1 ≤ k := rootW_pos h
          obtain ⟨k', rfl⟩ : ∃ k', k = k' + 1 := ⟨k - 1, by omega⟩
          rw [UnionFind.rootW]
          dsimp only
          rw [if_pos (rootW_root hx).1,
            Function.update_noteq hry, if_pos (rootW_root hx).2]
      · rw [Function.update_noteq hyx]
        by_cases hpar : uf.parent y = y
        · rw [if_pos hpar] at h
          rw [if_pos hpar]
          exact h
        · rw [if_neg hpar] at h
          rw [if_neg hpar]
          exact ih h
    · rw [if_neg hydom] at h; cases h

/-- `find` meets its specification on any state where the queried entity
reaches a root: it returns exactly that root, leaves the domain unchanged,
points the queried entity directly at the root, and preserves every
reachable root at unchanged fuel (the induced partition is untouched). -/
theorem find_spec : ∀ (fuel : ℕ) (uf : UnionFind) (x n r : ℕ),
    UnionFind.rootW n uf x = some r → n ≤ fuel →
    ∃ uf', UnionFind.find fuel uf x = .ok (r, uf') ∧
      uf'.dom = uf.dom ∧ uf'.parent x = r ∧
      (∀ k y s, UnionFind.rootW k uf y = some s →
        UnionFind.rootW k uf' y = some s) := by
  intro fuel
  induction fuel with
  | zero =>
    intro uf x n r h hn
    have := rootW_pos h
    omega
  | succ fuel ih =>
    intro uf x n r h hn
    have hdom : x ∈ uf.dom := rootW_dom h
    rw [UnionFind.find, if_pos hdom]
    by_cases hpar : uf.parent x = x
    · rw [if_pos hpar]
      have hrx : r = x := by
        obtain ⟨n', rfl⟩ : ∃ n', n = n' + 1 := ⟨n - 1, by have := rootW_pos h; omega⟩
        rw [UnionFind.rootW, if_pos hdom, if_pos hpar] at h
        injection h with h
        exact h.symm
      subst hrx
      exact ⟨uf, rfl, rfl, hpar, fun _ _ _ hk => hk⟩
    · rw [if_neg hpar]
      obtain ⟨n', rfl⟩ : ∃ n', n = n' + 1 := ⟨n - 1, by have := rootW_pos h; omega⟩
      have hstep : UnionFind.rootW n' uf (uf.parent x) = some r := by
        rw [UnionFind.rootW, if_pos hdom, if_neg hpar] at h
        exact h
      obtain ⟨uf1, hfind1, hdom1, _, hpres1⟩ :=
        ih uf (uf.parent x) n' r hstep (by omega)
      rw [hfind1]
      have hx1 : UnionFind.rootW (n' + 1) uf1 x = some r :=
        hpres1 _ _ _ (by rw [UnionFind.rootW, if_pos hdom, if_neg hpar]; exact hstep)
      exact ⟨⟨uf1.dom, Function.update uf1.parent x r⟩, rfl, hdom1,
        Function.update_same x r uf1.parent,
        fun k y s hk => rootW_update_eq_root hx1 (hpres1 k y s hk)⟩

/-- Repointing the root `rx` onto the root `ry` maps every old root `rx`
to `ry` and leaves all other roots alone, at one extra unit of fuel. -/
theorem rootW_update_merge {uf : UnionFind} {rx ry : ℕ}
    (hrx : uf.parent rx = rx) (hrydom : ry ∈ uf.dom)
    (hry : uf.parent ry = ry) (hne : rx ≠ ry) :
    ∀ {k y s : ℕ}, UnionFind.rootW k uf y = some s →
      UnionFind.rootW (k + 1) ⟨uf.dom, Function.update uf.parent rx ry⟩ y =
        some (if s = rx then ry else s) := by
  intro k
  induction k with
  | zero => intro y s h; cases h
  | succ k ih =>
    intro y s h
    rw [UnionFind.rootW] at h
    by_cases hydom : y ∈ uf.dom
    · rw [if_pos hydom] at h
      rw [UnionFind.rootW]
      dsimp only
      rw [if_pos hydom]
      by_cases hpar : uf.parent y = y
      · rw [if_pos hpar] at h
        injection h with h
        subst h
        by_cases hyrx : y = rx
        · subst hyrx
          rw [Function.update_same, if_neg (Ne.symm hne), if_pos rfl]
          rw [UnionFind.rootW]
          dsimp only
          rw [if_pos hrydom, Function.update_noteq (Ne.symm hne), if_pos hry]
        · rw [Function.update_noteq hyrx, if_pos hpar, if_neg hyrx]
      · have hyrx : y ≠ rx := fun he => hpar (he ▸ hrx)
        rw [if_neg hpar] at h
        rw [Function.update_noteq hyrx, if_neg hpar]
        exact ih h
    · rw [if_neg hydom] at h; cases h

theorem merge_eq_iff {sa sb rx ry : ℕ} (hne : rx ≠ ry) :
    ((if sa = rx then ry else sa) = (if sb = rx then ry else sb)) ↔
      (sa = sb ∨ (sa = rx ∧ sb = ry) ∨ (sa = ry ∧ sb = rx)) := by
  by_cases h1 : sa = rx <;> by_cases h2 : sb = rx <;>
    simp [h1, h2] <;> subst_vars <;> constructor <;> intro h <;>
    first
      | tauto
      | (rcases h with h | h | h <;> tauto)

/-- One `union` call on a valid state: it reports no error, keeps the
domain, stays valid with one more unit of depth, and merges exactly the
classes of the two endpoints. -/
theorem union_step {B fuel : ℕ} {uf : UnionFind} {x y : ℕ}
    (hV : ValidB B uf) (hBf : B ≤ fuel) (hx : x ∈ uf.dom) (hy : y ∈ uf.dom) :
    (UnionFind.union fuel uf x y).2 = none ∧
    (UnionFind.union fuel uf x y).1.dom = uf.dom ∧
    ValidB (B + 1) (UnionFind.union fuel uf x y).1 ∧
    ∀ a b, a ∈ uf.dom → b ∈ uf.dom →
      (UnionFind.rootW (B + 1) (UnionFind.union fuel uf x y).1 a =
         UnionFind.rootW (B + 1) (UnionFind.union fuel uf x y).1 b ↔
       (UnionFind.rootW B uf a = UnionFind.rootW B uf b ∨
        (UnionFind.rootW B uf a = UnionFind.rootW B uf x ∧
         UnionFind.rootW B uf b = UnionFind.rootW B uf y) ∨
        (UnionFind.rootW B uf a = UnionFind.rootW B uf y ∧
         UnionFind.rootW B uf b = UnionFind.rootW B uf x))) := by
  obtain ⟨rx, hrootx⟩ := Option.isSome_iff_exists.mp (hV x hx)
  obtain ⟨uf1, hf1, hdom1, _, hpres1⟩ := find_spec fuel uf x B rx hrootx hBf
  obtain ⟨ry, hrooty⟩ := Option.isSome_iff_exists.mp (hV y hy)
  obtain ⟨uf2, hf2, hdom2, _, hpres2⟩ :=
    find_spec fuel uf1 y B ry (hpres1 B y ry hrooty) hBf
  have hpres : ∀ k z s, UnionFind.rootW k uf z = some s →
      UnionFind.rootW k uf2 z = some s :=
    fun k z s hk => hpres2 k z s (hpres1 k z s hk)
  have hdom : uf2.dom = uf.dom := hdom2.trans hdom1
  have hval : ∀ z ∈ uf.dom, ∃ sz, UnionFind.rootW B uf z = some sz :=
    fun z hz => Option.isSome_iff_exists.mp (hV z hz)
  by_cases hrxy : rx = ry
  · have hres : UnionFind.union fuel uf x y = (uf2, none) := by
      rw [UnionFind.union, hf1]
      dsimp only
      rw [hf2]
      dsimp only
      rw [if_neg (by simpa using hrxy)]
    rw [hres]
    refine ⟨rfl, hdom, ?_, ?_⟩
    · intro z hz
      rw [hdom] at hz
      obtain ⟨sz, hsz⟩ := hval z hz
      exact Option.isSome_iff_exists.mpr ⟨sz, rootW_mono (hpres B z sz hsz) (by omega)⟩
    · intro a b ha hb
      obtain ⟨sa, hsa⟩ := hval a ha
      obtain ⟨sb, hsb⟩ := hval b hb
      rw [rootW_mono (hpres B a sa hsa) (show B ≤ B + 1 by omega),
        rootW_mono (hpres B b sb hsb) (show B ≤ B + 1 by omega),
        hsa, hsb, hrootx, hrooty, hrxy]
      simp only [Option.some.injEq]
      constructor
      · intro h; exact Or.inl h
      · rintro (h | ⟨h1, h2⟩ | ⟨h1, h2⟩)
        · exact h
        · exact h1.trans h2.symm
        · exact h1.trans h2.symm
  · have hrx2 : UnionFind.rootW B uf2 x = some rx := hpres B x rx hrootx
    have hry2 : UnionFind.rootW B uf2 y = some ry := hpres B y ry hrooty
    have hrxroot := rootW_root hrx2
    have hryroot := rootW_root hry2
    have hres : UnionFind.union fuel uf x y =
        (⟨uf2.dom, Function.update uf2.parent rx ry⟩, none) := by
      rw [UnionFind.union, hf1]
      dsimp only
      rw [hf2]
      dsimp only
      rw [if_pos (by simpa using hrxy)]
    rw [hres]
    have hval3 : ∀ z sz, UnionFind.rootW B uf z = some sz →
        UnionFind.rootW (B + 1)
          (⟨uf2.dom, Function.update uf2.parent rx ry⟩ : UnionFind) z =
          some (if sz = rx then ry else sz) :=
      fun z sz hsz =>
        rootW_update_merge hrxroot.2 hryroot.1 hryroot.2 hrxy (hpres B z sz hsz)
    refine ⟨rfl, by simpa using hdom, ?_, ?_⟩
    · intro z hz
      rw [show (⟨uf2.dom, Function.update uf2.parent rx ry⟩ : UnionFind).dom
          = uf.dom from by simpa using hdom] at hz
      obtain ⟨sz, hsz⟩ := hval z hz
      exact Option.isSome_iff_exists.mpr ⟨_, hval3 z sz hsz⟩
    · intro a b ha hb
      obtain ⟨sa, hsa⟩ := hval a ha
      obtain ⟨sb, hsb⟩ := hval b hb
      rw [hval3 a sa hsa, hval3 b sb hsb, hsa, hsb, hrootx, hrooty]
      simp only [Option.some.injEq]
      exact merge_eq_iff hrxy

theorem makeSets_dom (ids : List ℕ) : ∀ uf : UnionFind,
    (ids.foldl (fun uf u => uf.make_set u) uf).dom = uf.dom ∪ ids.toFinset := by
  induction ids with
  | nil => intro uf; simp
  | cons u rest ih =>
    intro uf
    rw [List.foldl_cons, ih]
    unfold UnionFind.make_set
    by_cases h : u ∈ uf.dom
    · rw [if_pos h]
      ext a
      simp only [Finset.mem_union, List.toFinset_cons, Finset.mem_insert,
        List.mem_toFinset]
      constructor
      · rintro (ha | ha)
        · exact Or.inl ha
        · exact Or.inr (Or.inr ha)
      · rintro (ha | rfl | ha)
        · exact Or.inl ha
        · exact Or.inl h
        · exact Or.inr ha
    · rw [if_neg h]
      ext a
      simp only [Finset.mem_union, Finset.mem_insert, List.toFinset_cons,
        List.mem_toFinset]
      tauto

theorem makeSets_roots (ids : List ℕ) : ∀ uf : UnionFind,
    (∀ x ∈ uf.dom, uf.parent x = x) →
    ∀ x ∈ (ids.foldl (fun uf u => uf.make_set u) uf).dom,
      (ids.foldl (fun uf u => uf.make_set u) uf).parent x = x := by
  induction ids with
  | nil => intro uf h; exact h
  | cons u rest ih =>
    intro uf h
    rw [List.foldl_cons]
    refine ih _ ?_
    intro x hx
    unfold UnionFind.make_set at hx ⊢
    by_cases hu : u ∈ uf.dom
    · rw [if_pos hu] at hx ⊢
      exact h x hx
    · rw [if_neg hu] at hx ⊢
      dsimp only at hx ⊢
      rcases Finset.mem_insert.mp hx with rfl | hx
      · exact Function.update_same x x uf.parent
      · rw [Function.update_noteq (fun (he : x = u) => hu (he ▸ hx))]
        exact h x hx

theorem connected_nil {a b : ℕ} (h : Connected [] a b) : a = b := by
  induction h with
  | refl a => rfl
  | symm _ ih => exact ih.symm
  | trans _ _ ih1 ih2 => exact ih1.trans ih2
  | edge h => cases h

theorem connected_mono {E E' : List (ℕ × ℕ)} (hsub : ∀ p ∈ E, p ∈ E')
    {a b : ℕ} (h : Connected E a b) : Connected E' a b := by
  induction h with
  | refl a => exact .refl a
  | symm _ ih => exact .symm ih
  | trans _ _ ih1 ih2 => exact .trans ih1 ih2
  | edge h => exact .edge (hsub _ h)

theorem connected_append_single {E : List (ℕ × ℕ)} {x y a b : ℕ} :
    Connected (E ++ [(x, y)]) a b ↔
      (Connected E a b ∨ (Connected E a x ∧ Connected E y b) ∨
       (Connected E a y ∧ Connected E x b)) := by
  constructor
  · intro h
    induction h with
    | refl a => exact Or.inl (.refl a)
    | symm _ ih =>
      rcases ih with h | ⟨h1, h2⟩ | ⟨h1, h2⟩
      · exact Or.inl h.symm
      · exact Or.inr (Or.inr ⟨h2.symm, h1.symm⟩)
      · exact Or.inr (Or.inl ⟨h2.symm, h1.symm⟩)
    | trans _ _ ih1 ih2 =>
      rcases ih1 with h1 | ⟨h1, h2⟩ | ⟨h1, h2⟩ <;>
        rcases ih2 with h3 | ⟨h3, h4⟩ | ⟨h3, h4⟩
      · exact Or.inl (h1.trans h3)
      · exact Or.inr (Or.inl ⟨h1.trans h3, h4⟩)
      · exact Or.inr (Or.inr ⟨h1.trans h3, h4⟩)
      · exact Or.inr (Or.inl ⟨h1, h2.trans h3⟩)
      · exact Or.inr (Or.inl ⟨h1, h4⟩)
      · exact Or.inl (h1.trans h4)
      · exact Or.inr (Or.inr ⟨h1, h2.trans h3⟩)
      · exact Or.inl (h1.trans h4)
      · exact Or.inr (Or.inr ⟨h1, h4⟩)
    | edge h =>
      rcases List.mem_append.mp h with h | h
      · exact Or.inl (.edge h)
      · have heq := List.mem_singleton.mp h
        injection heq with heq1 heq2
        subst heq1; subst heq2
        exact Or.inr (Or.inl ⟨.refl _, .refl _⟩)
  · have hedge : Connected (E ++ [(x, y)]) x y :=
      .edge (List.mem_append_right _ (List.mem_singleton.mpr rfl))
    have hmono : ∀ {c d : ℕ}, Connected E c d → Connected (E ++ [(x, y)]) c d :=
      fun h => connected_mono (fun p hp => List.mem_append_left _ hp) h
    rintro (h | ⟨h1, h2⟩ | ⟨h1, h2⟩)
    · exact hmono h
    · exact .trans (hmono h1) (.trans hedge (hmono h2))
    · exact .trans (hmono h1) (.trans (.symm hedge) (hmono h2))

/-- Folding `union` over an edge list maintains the correspondence between
equal roots and connectivity over the edges processed so far. -/
theorem fold_union_connected (fuel : ℕ) :
    ∀ (l : List (ℕ × ℕ)) (uf : UnionFind) (B : ℕ) (E : List (ℕ × ℕ)),
    ValidB B uf →
    (∀ p ∈ l, p.1 ∈ uf.dom ∧ p.2 ∈ uf.dom) →
    B + l.length ≤ fuel →
    (∀ a b, a ∈ uf.dom → b ∈ uf.dom →
      (UnionFind.rootW B uf a = UnionFind.rootW B uf b ↔ Connected E a b)) →
    ((l.foldl (fun uf p => (UnionFind.union fuel uf p.1 p.2).1) uf).dom =
        uf.dom ∧
     ValidB (B + l.length)
       (l.foldl (fun uf p => (UnionFind.union fuel uf p.1 p.2).1) uf) ∧
     ∀ a b, a ∈ uf.dom → b ∈ uf.dom →
       (UnionFind.rootW (B + l.length)
           (l.foldl (fun uf p => (UnionFind.union fuel uf p.1 p.2).1) uf) a =
        UnionFind.rootW (B + l.length)
           (l.foldl (fun uf p => (UnionFind.union fuel uf p.1 p.2).1) uf) b ↔
        Connected (E ++ l) a b)) := by
  intro l
  induction l with
  | nil =>
    intro uf B E hV hend hf hinv
    refine ⟨rfl, by simpa using hV, fun a b ha hb => ?_⟩
    simpa using hinv a b ha hb
  | cons p l ih =>
    intro uf B E hV hend hf hinv
    obtain ⟨hx, hy⟩ := hend p (List.mem_cons_self p l)
    obtain ⟨_, hdom1, hV1, hiff⟩ :=
      @union_step B fuel uf p.1 p.2 hV (by simp at hf; omega) hx hy
    rw [List.foldl_cons]
    have hinv1 : ∀ a b, a ∈ (UnionFind.union fuel uf p.1 p.2).1.dom →
        b ∈ (UnionFind.union fuel uf p.1 p.2).1.dom →
        (UnionFind.rootW (B + 1) (UnionFind.union fuel uf p.1 p.2).1 a =
           UnionFind.rootW (B + 1) (UnionFind.union fuel uf p.1 p.2).1 b ↔
         Connected (E ++ [p]) a b) := by
      intro a b ha hb
      rw [hdom1] at ha hb
      rw [hiff a b ha hb,
        show (E ++ [p]) = (E ++ [(p.1, p.2)]) from rfl,
        connected_append_single]
      constructor
      · rintro (h | ⟨h1, h2⟩ | ⟨h1, h2⟩)
        · exact Or.inl ((hinv a b ha hb).mp h)
        · exact Or.inr (Or.inl ⟨(hinv a p.1 ha hx).mp h1,
            .symm ((hinv b p.2 hb hy).mp h2)⟩)
        · exact Or.inr (Or.inr ⟨(hinv a p.2 ha hy).mp h1,
            .symm ((hinv b p.1 hb hx).mp h2)⟩)
      · rintro (h | ⟨h1, h2⟩ | ⟨h1, h2⟩)
        · exact Or.inl ((hinv a b ha hb).mpr h)
        · exact Or.inr (Or.inl ⟨(hinv a p.1 ha hx).mpr h1,
            (hinv b p.2 hb hy).mpr h2.symm⟩)
        · exact Or.inr (Or.inr ⟨(hinv a p.2 ha hy).mpr h1,
            (hinv b p.1 hb hx).mpr h2.symm⟩)
    have hend1 : ∀ q ∈ l, q.1 ∈ (UnionFind.union fuel uf p.1 p.2).1.dom ∧
        q.2 ∈ (UnionFind.union fuel uf p.1 p.2).1.dom := by
      intro q hq
      rw [hdom1]
      exact hend q (List.mem_cons_of_mem p hq)
    obtain ⟨hdomf, hVf, hinvf⟩ :=
      ih (UnionFind.union fuel uf p.1 p.2).1 (B + 1) (E ++ [p]) hV1 hend1
        (by simp at hf ⊢; omega) hinv1
    have hlen : B + (p :: l).length = B + 1 + l.length := by
      simp [List.length_cons]; omega
    refine ⟨hdomf.trans hdom1, ?_, ?_⟩
    · rw [hlen]
      exact hVf
    · intro a b ha hb
      rw [hlen]
      have := hinvf a b (by rw [hdom1]; exact ha) (by rw [hdom1]; exact hb)
      rw [this, show (E ++ [p]) ++ l = E ++ (p :: l) from by
        rw [List.append_assoc]; rfl]

/-- C1: after every accepted edge has been folded into the union-find over
the registered users, two registered users share a final root exactly when
they are connected by a path of accepted edges — the transitive closure of
the threshold relation. (`find` returns exactly this root and never changes
the partition, by `find_spec`.) -/
theorem communities_partition (ids : List ℕ) (liked : ℕ → Finset ℕ) (t : ℚ)
    (fuel : ℕ) (hfuel : 1 + (acceptedPairs ids liked t).length ≤ fuel)
    (A B : ℕ) (hA : A ∈ ids) (hB : B ∈ ids) :
    (UnionFind.rootW fuel (buildCommunities ids liked t fuel) A =
       UnionFind.rootW fuel (buildCommunities ids liked t fuel) B ↔
     Connected (acceptedPairs ids liked t) A B) := by
  have hbc : buildCommunities ids liked t fuel =
      (acceptedPairs ids liked t).foldl
        (fun uf p => (UnionFind.union fuel uf p.1 p.2).1)
        (ids.foldl (fun uf u => uf.make_set u) UnionFind.empty) := rfl
  set uf0 := ids.foldl (fun uf u => uf.make_set u) UnionFind.empty with huf0
  have hdom0 : uf0.dom = ids.toFinset := by
    rw [huf0, makeSets_dom]
    simp [UnionFind.empty]
  have hroots0 : ∀ x ∈ uf0.dom, uf0.parent x = x :=
    makeSets_roots ids UnionFind.empty (by simp [UnionFind.empty])
  have hV0 : ValidB 1 uf0 := by
    intro x hx
    rw [rootW_of_root 0 hx (hroots0 x hx)]
    rfl
  have hinv0 : ∀ a b, a ∈ uf0.dom → b ∈ uf0.dom →
      (UnionFind.rootW 1 uf0 a = UnionFind.rootW 1 uf0 b ↔
        Connected [] a b) := by
    intro a b ha hb
    rw [rootW_of_root 0 ha (hroots0 a ha), rootW_of_root 0 hb (hroots0 b hb)]
    simp only [Option.some.injEq]
    constructor
    · rintro rfl
      exact .refl a
    · exact connected_nil
  have hend : ∀ p ∈ acceptedPairs ids liked t,
      p.1 ∈ uf0.dom ∧ p.2 ∈ uf0.dom := by
    intro p hp
    have hp' : p ∈ pairsAfter ids := List.mem_of_mem_filter hp
    have hmem := pairsAfter_mem_both (a := p.1) (b := p.2) (by simpa using hp')
    rw [hdom0]
    exact ⟨List.mem_toFinset.mpr hmem.1, List.mem_toFinset.mpr hmem.2⟩
  obtain ⟨hdomf, hVf, hinvf⟩ :=
    fold_union_connected fuel (acceptedPairs ids liked t) uf0 1 [] hV0 hend
      (by omega) hinv0
  have hA0 : A ∈ uf0.dom := by rw [hdom0]; exact List.mem_toFinset.mpr hA
  have hB0 : B ∈ uf0.dom := by rw [hdom0]; exact List.mem_toFinset.mpr hB
  have hiff := hinvf A B hA0 hB0
  obtain ⟨sa, hsa⟩ := Option.isSome_iff_exists.mp
    (hVf A (by rw [hdomf]; exact hA0))
  obtain ⟨sb, hsb⟩ := Option.isSome_iff_exists.mp
    (hVf B (by rw [hdomf]; exact hB0))
  rw [hbc, rootW_mono hsa (by omega), rootW_mono hsb (by omega)]
  rw [hsa, hsb] at hiff
  simpa using hiff

theorem jaccard_onetwo_twothree :
    calculate_jaccard_similarity {1, 2} {2, 3} = 1/3 := by
  rw [calculate_jaccard_similarity, if_neg (by decide),
    show (({1, 2} : Finset ℕ) ∩ {2, 3}).card = 1 from by decide,
    show (({1, 2} : Finset ℕ) ∪ {2, 3}).card = 3 from by decide]
  norm_num

theorem jaccard_onetwo_nine :
    calculate_jaccard_similarity {1, 2} {9} = 0 := by
  rw [calculate_jaccard_similarity, if_neg (by decide),
    show (({1, 2} : Finset ℕ) ∩ {9}).card = 0 from by decide,
    show (({1, 2} : Finset ℕ) ∪ {9}).card = 3 from by decide]
  norm_num

theorem jaccard_twothree_nine :
    calculate_jaccard_similarity {2, 3} {9} = 0 := by
  rw [calculate_jaccard_similarity, if_neg (by decide),
    show (({2, 3} : Finset ℕ) ∩ {9}).card = 0 from by decide,
    show (({2, 3} : Finset ℕ) ∪ {9}).card = 3 from by decide]
  norm_num

/-- In the spec's concrete scenario at threshold `1/5`, exactly the pair
`(U1, U2)` is accepted. -/
theorem acceptedPairs_example :
    acceptedPairs [1, 2, 3] likedEx (1/5) = [(1, 2)] := by
  simp only [acceptedPairs, pairsAfter, likedEx, List.map, List.append]
  norm_num [List.filter, jaccard_onetwo_twothree, jaccard_onetwo_nine,
    jaccard_twothree_nine]

/-- C1 witness: the theorem applied at the concrete scenario, users `1`
and `2`, fuel `10`. -/
theorem communities_partition_witness :
    (UnionFind.rootW 10 (buildCommunities [1, 2, 3] likedEx (1/5) 10) 1 =
       UnionFind.rootW 10 (buildCommunities [1, 2, 3] likedEx (1/5) 10) 2 ↔
     Connected (acceptedPairs [1, 2, 3] likedEx (1/5)) 1 2) :=
  communities_partition [1, 2, 3] likedEx (1/5) 10
    (by rw [acceptedPairs_example]; norm_num) 1 2 (by decide) (by decide)

/-- C10: on any state satisfying the forest invariant (bound `B`, fuel at
least `B`), `find` terminates on every registered entity with a root `r`
satisfying `parent[r] = r`, afterwards `parent[x] = r`, and the induced
partition — the grouping of registered entities by root — is exactly the
same before and after, despite path compression. -/
theorem find_correct (uf : UnionFind) (B fuel x : ℕ)
    (hV : ValidB B uf) (hBf : B ≤ fuel) (hx : x ∈ uf.dom) :
    ∃ r uf', UnionFind.find fuel uf x = .ok (r, uf') ∧
      uf'.parent r = r ∧ uf'.parent x = r ∧ uf'.dom = uf.dom ∧
      ∀ y ∈ uf.dom, UnionFind.rootW B uf' y = UnionFind.rootW B uf y := by
  obtain ⟨r, hr⟩ := Option.isSome_iff_exists.mp (hV x hx)
  obtain ⟨uf', hfind, hdom, hparx, hpres⟩ := find_spec fuel uf x B r hr hBf
  refine ⟨r, uf', hfind, ?_, hparx, hdom, ?_⟩
  · have hroot := rootW_root hr
    have h1 : UnionFind.rootW 1 uf' r = some r :=
      hpres 1 r r (rootW_of_root 0 hroot.1 hroot.2)
    rw [UnionFind.rootW] at h1
    by_cases hd : r ∈ uf'.dom
    · rw [if_pos hd] at h1
      by_cases hp : uf'.parent r = r
      · exact hp
      · rw [if_neg hp] at h1; cases h1
    · rw [if_neg hd] at h1; cases h1
  · intro y hy
    obtain ⟨s, hs⟩ := Option.isSome_iff_exists.mp (hV y hy)
    rw [hs, hpres B y s hs]

/-- C10 witness: the theorem applied at the concrete chain state
`0 ↦ 1 ↦ 2`, querying entity `0`. -/
theorem find_correct_witness :
    ∃ r uf', UnionFind.find 5 ufChainEx 0 = .ok (r, uf') ∧
      uf'.parent r = r ∧ uf'.parent 0 = r ∧ uf'.dom = ufChainEx.dom ∧
      ∀ y ∈ ufChainEx.dom,
        UnionFind.rootW 3 uf' y = UnionFind.rootW 3 ufChainEx y :=
  find_correct ufChainEx 3 5 0 (by decide) (by decide) (by decide)

theorem make_set_idem (uf : UnionFind) (x : ℕ) :
    (uf.make_set x).make_set x = uf.make_set x := by
  by_cases h : x ∈ uf.dom
  · simp [UnionFind.make_set, h]
  · simp only [UnionFind.make_set, if_neg h]
    rw [if_pos (Finset.mem_insert_self x uf.dom)]

theorem find_not_mem {fuel : ℕ} {uf : UnionFind} {x : ℕ} (hf : 1 ≤ fuel)
    (hx : x ∉ uf.dom) :
    UnionFind.find fuel uf x = .error (.keyError x) := by
  obtain ⟨f, rfl⟩ : ∃ f, fuel = f + 1 := ⟨fuel - 1, by omega⟩
  rw [UnionFind.find, if_neg hx]

/-- A `union` whose endpoints already share a root performs no merge and
keeps the partition pointwise identical (the two `find`s only compress). -/
theorem union_noop_same_partition {B fuel : ℕ} {uf : UnionFind} {x y : ℕ}
    (hV : ValidB B uf) (hBf : B ≤ fuel) (hx : x ∈ uf.dom) (hy : y ∈ uf.dom)
    (hsame : UnionFind.rootW B uf x = UnionFind.rootW B uf y) :
    ∀ z ∈ uf.dom,
      UnionFind.rootW B (UnionFind.union fuel uf x y).1 z =
        UnionFind.rootW B uf z := by
  obtain ⟨rx, hrx⟩ := Option.isSome_iff_exists.mp (hV x hx)
  obtain ⟨uf1, hf1, hdom1, _, hpres1⟩ := find_spec fuel uf x B rx hrx hBf
  obtain ⟨ry, hry⟩ := Option.isSome_iff_exists.mp (hV y hy)
  obtain ⟨uf2, hf2, hdom2, _, hpres2⟩ :=
    find_spec fuel uf1 y B ry (hpres1 B y ry hry) hBf
  have hrxy : rx = ry := by
    rw [hrx, hry] at hsame
    exact Option.some.inj hsame
  have hres : UnionFind.union fuel uf x y = (uf2, none) := by
    rw [UnionFind.union, hf1]
    dsimp only
    rw [hf2]
    dsimp only
    rw [if_neg (by simpa using hrxy)]
  rw [hres]
  intro z hz
  obtain ⟨s, hs⟩ := Option.isSome_iff_exists.mp (hV z hz)
  rw [hs, hpres2 B z s (hpres1 B z s hs)]

theorem union_twice_partition {B fuel : ℕ} {uf : UnionFind} {x y : ℕ}
    (hV : ValidB B uf) (hBf : B + 1 ≤ fuel) (hx : x ∈ uf.dom)
    (hy : y ∈ uf.dom) :
    ∀ z ∈ uf.dom,
      UnionFind.rootW (B + 1)
          (UnionFind.union fuel (UnionFind.union fuel uf x y).1 x y).1 z =
        UnionFind.rootW (B + 1) (UnionFind.union fuel uf x y).1 z := by
  obtain ⟨_, hdom1, hV1, hiff⟩ :=
    @union_step B fuel uf x y hV (by omega) hx hy
  have hsame : UnionFind.rootW (B + 1) (UnionFind.union fuel uf x y).1 x =
      UnionFind.rootW (B + 1) (UnionFind.union fuel uf x y).1 y :=
    (hiff x y hx hy).mpr (Or.inr (Or.inl ⟨rfl, rfl⟩))
  intro z hz
  exact union_noop_same_partition hV1 hBf (by rw [hdom1]; exact hx)
    (by rw [hdom1]; exact hy) hsame z (by rw [hdom1]; exact hz)

/-- C6 counterexample: on the API-reachable state `ufPairEx`
(`{0: 1, 1: 1, 2: 2}`), applying `union(0, 2)` once leaves `parent[0] = 1`,
while applying it twice leaves `parent[0] = 2`: the second application's
path compression rewrites the parent map, so the final states are not
identical. -/
theorem union_twice_counterexample :
    (UnionFind.union 5 ufPairEx 0 2).1.parent 0 = 1 ∧
    (UnionFind.union 5 (UnionFind.union 5 ufPairEx 0 2).1 0 2).1.parent 0 = 2 ∧
    (UnionFind.union 5 ufPairEx 0 2).1.parent 0 ≠
      (UnionFind.union 5 (UnionFind.union 5 ufPairEx 0 2).1 0 2).1.parent 0 := by
  refine ⟨by decide, by decide, by decide⟩

/-- C6 amended: registering an entity twice is exactly a no-op beyond the
first registration; applying `union` twice on the same edge yields the same
induced partition (identical roots for every registered entity) as applying
it once, though path compression may rewrite raw parent pointers. -/
theorem idempotence_amended :
    (∀ (uf : UnionFind) (x : ℕ),
      (uf.make_set x).make_set x = uf.make_set x) ∧
    (∀ (B fuel : ℕ) (uf : UnionFind) (x y : ℕ), ValidB B uf →
      B + 1 ≤ fuel → x ∈ uf.dom → y ∈ uf.dom → ∀ z ∈ uf.dom,
      UnionFind.rootW (B + 1)
          (UnionFind.union fuel (UnionFind.union fuel uf x y).1 x y).1 z =
        UnionFind.rootW (B + 1) (UnionFind.union fuel uf x y).1 z) :=
  ⟨make_set_idem, fun _ _ _ _ _ hV hBf hx hy => union_twice_partition hV hBf hx hy⟩

/-- C6 amended witness: the theorem applied at `ufPairEx` with the edge
`(0, 2)`, depth bound `2` and fuel `5`. -/
theorem idempotence_amended_witness :
    ((ufPairEx.make_set 0).make_set 0 = ufPairEx.make_set 0) ∧
    (∀ z ∈ ufPairEx.dom,
      UnionFind.rootW 3
          (UnionFind.union 5 (UnionFind.union 5 ufPairEx 0 2).1 0 2).1 z =
        UnionFind.rootW 3 (UnionFind.union 5 ufPairEx 0 2).1 z) :=
  ⟨idempotence_amended.1 ufPairEx 0,
   idempotence_amended.2 2 5 ufPairEx 0 2 (by decide) (by decide)
     (by decide) (by decide)⟩

/-- C8 counterexample: on the chain state `0 ↦ 1 ↦ 2`, requesting
`union(0, 7)` with `7` unregistered raises `KeyError 7`, but the state is
not left unchanged: the first `find` had already compressed `parent[0]`
from `1` to `2`. -/
theorem union_unregistered_counterexample :
    (UnionFind.union 5 ufChainEx 0 7).2 = some (UFErr.keyError 7) ∧
    ufChainEx.parent 0 = 1 ∧
    (UnionFind.union 5 ufChainEx 0 7).1.parent 0 = 2 := by
  refine ⟨by decide, by decide, by decide⟩

/-- C8 amended: a `union` on an unregistered entity fails with the typed
`KeyError` naming that entity and performs no merge; if the first endpoint
is unregistered the state is exactly unchanged, while if only the second is
unregistered the failure leaves the first `find`'s path compression in
place — the raw parent map may change, but the induced partition does not. -/
theorem union_unregistered_amended :
    (∀ (fuel : ℕ) (uf : UnionFind) (x y : ℕ), x ∉ uf.dom → 1 ≤ fuel →
      UnionFind.union fuel uf x y = (uf, some (UFErr.keyError x))) ∧
    (∀ (B fuel : ℕ) (uf : UnionFind) (x y : ℕ), ValidB B uf → B ≤ fuel →
      x ∈ uf.dom → y ∉ uf.dom →
      ((UnionFind.union fuel uf x y).2 = some (UFErr.keyError y) ∧
       (UnionFind.union fuel uf x y).1.dom = uf.dom ∧
       ∀ z ∈ uf.dom,
         UnionFind.rootW B (UnionFind.union fuel uf x y).1 z =
           UnionFind.rootW B uf z)) := by
  constructor
  · intro fuel uf x y hx hf
    rw [UnionFind.union, find_not_mem hf hx]
  · intro B fuel uf x y hV hBf hx hy
    obtain ⟨rx, hrx⟩ := Option.isSome_iff_exists.mp (hV x hx)
    obtain ⟨uf1, hf1, hdom1, _, hpres1⟩ := find_spec fuel uf x B rx hrx hBf
    have hB1 : 1 ≤ B := rootW_pos hrx
    have hy1 : y ∉ uf1.dom := by rw [hdom1]; exact hy
    have hres : UnionFind.union fuel uf x y =
        (uf1, some (UFErr.keyError y)) := by
      rw [UnionFind.union, hf1]
      dsimp only
      rw [find_not_mem (by omega) hy1]
    rw [hres]
    refine ⟨rfl, hdom1, ?_⟩
    intro z hz
    obtain ⟨s, hs⟩ := Option.isSome_iff_exists.mp (hV z hz)
    rw [hs, hpres1 B z s hs]

/-- C8 amended witness: both halves of the theorem applied at concrete
states — `union(7, 0)` on `ufChainEx` (first endpoint unregistered), and
`union(0, 7)` (second endpoint unregistered, depth bound `3`, fuel `5`). -/
theorem union_unregistered_amended_witness :
    (UnionFind.union 5 ufChainEx 7 0 =
      (ufChainEx, some (UFErr.keyError 7))) ∧
    ((UnionFind.union 5 ufChainEx 0 7).2 = some (UFErr.keyError 7) ∧
     (UnionFind.union 5 ufChainEx 0 7).1.dom = ufChainEx.dom ∧
     ∀ z ∈ ufChainEx.dom,
       UnionFind.rootW 3 (UnionFind.union 5 ufChainEx 0 7).1 z =
         UnionFind.rootW 3 ufChainEx z) :=
  ⟨union_unregistered_amended.1 5 ufChainEx 7 0 (by decide) (by decide),
   union_unregistered_amended.2 3 5 ufChainEx 0 7 (by decide) (by decide)
     (by decide) (by decide)⟩

/-- C9 counterexample: the union-find has no `Partitioned` state and no
`StateError`. After the full pipeline of the spec's concrete scenario has
processed all accepted edges, registering a new entity `99` succeeds and
mutates the structure, and a further `union` on registered entities also
completes without any error. -/
theorem finalization_missing_counterexample :
    99 ∉ (buildCommunities [1, 2, 3] likedEx (1/5) 10).dom ∧
    99 ∈ ((buildCommunities [1, 2, 3] likedEx (1/5) 10).make_set 99).dom ∧
    (UnionFind.union 10 (buildCommunities [1, 2, 3] likedEx (1/5) 10) 1 2).2
      = none := by
  have hbc : buildCommunities [1, 2, 3] likedEx (1/5) 10 =
      ([(1, 2)] : List (ℕ × ℕ)).foldl
        (fun uf p => (UnionFind.union 10 uf p.1 p.2).1)
        (([1, 2, 3] : List ℕ).foldl (fun uf u => uf.make_set u)
          UnionFind.empty) := by
    rw [show buildCommunities [1, 2, 3] likedEx (1/5) 10 =
        (acceptedPairs [1, 2, 3] likedEx (1/5)).foldl
          (fun uf p => (UnionFind.union 10 uf p.1 p.2).1)
          (([1, 2, 3] : List ℕ).foldl (fun uf u => uf.make_set u)
            UnionFind.empty) from rfl,
      acceptedPairs_example]
  rw [hbc]
  refine ⟨by decide, by decide, by decide⟩

/-- C9 amended: no read-only `Partitioned` state is ever entered: at any
point, including after all edges have been processed, `make_set` on a new
entity still succeeds and extends the domain (and `union` on registered
entities still succeeds, per the C1 development); no `StateError` exists in
the code. -/
theorem no_finalization_amended (uf : UnionFind) (x : ℕ) (hx : x ∉ uf.dom) :
    (uf.make_set x).dom = insert x uf.dom ∧ (uf.make_set x).parent x = x := by
  rw [UnionFind.make_set, if_neg hx]
  exact ⟨rfl, Function.update_same x x uf.parent⟩

/-- C9 amended witness: the theorem applied at the chain state and the
fresh entity `7`. -/
theorem no_finalization_amended_witness :
    (ufChainEx.make_set 7).dom = insert 7 ufChainEx.dom ∧
    (ufChainEx.make_set 7).parent 7 = 7 :=
  no_finalization_amended ufChainEx 7 (by decide)

end RecGraphs
